import Mathlib

/-!
Verification of the meal-picker logic in `src/script.js`.

The script's core is a weighted random selector over a meal list, a
history log of `{ meal, date }` records, and a 30-day recency window.
The embedding below translates the relevant functions directly:

* `lastEaten`, `computeWeights` — the weight-assignment step of
  `pickWeightedMeal` (`meals.map(...)` with `filter`/`reduce`);
* `buildPool` — the flattened `weightedList` array;
* `pick` — the index draw `Math.floor(randomSource() * length)` plus the
  `find`-based penalization message, with the random value passed in
  explicitly as a rational in place of the IEEE float;
* `pickWeightedMeal` — the whole function, including the empty-list guard;
* `recentFilter` / `recentHistory` — the filter–sort–slice pipeline of
  `renderHistory` (JavaScript `Array.prototype.sort` is stable, modelled
  by `List.mergeSort`);
* `jsTrim`, `addMeal`, `deleteMeal`, `confirmMeal` — the list/history
  mutations, with the stored state passed and returned explicitly.

Machine numbers: all timestamps are epoch milliseconds, held exactly in
JavaScript doubles for any realistic date, so they are modelled as `Int`;
the random draw is modelled as `ℚ`.
-/

namespace Script

/-- Thirty days in milliseconds: the `RECENT_DAYS_MS` constant of
`pickWeightedMeal` and the `cutoffDate` window of `renderHistory`,
both written `30 * 24 * 60 * 60 * 1000` in the source. -/
def RECENT_DAYS_MS : Int := 30 * 24 * 60 * 60 * 1000

/-- One history record `{ meal: string, date: number }` as stored by the
script (see `loadHistory` and `confirmMeal`). -/
structure HistoryEntry where
  meal : String
  date : Int
deriving DecidableEq

/-- One ephemeral `{ meal, weight }` pair as built by the `meals.map`
step inside `pickWeightedMeal`. -/
structure WeightedMeal where
  meal : String
  weight : Nat
deriving DecidableEq

/-- Translation of
`history.filter(item => item.meal === meal).reduce((latest, item) => Math.max(latest, item.date), 0)`
from `pickWeightedMeal`: the latest matching timestamp, defaulting to `0`. -/
def lastEaten (history : List HistoryEntry) (meal : String) : Int :=
  (history.filter fun item => item.meal == meal).foldl
    (fun latest item => max latest item.date) 0

/-- The weight-assignment step of `pickWeightedMeal` (`meals.map(...)`),
with the clock value `now` (`Date.now()` in the source) passed explicitly:
weight `1` when `(now - lastEaten) < RECENT_DAYS_MS`, else `10`. -/
def computeWeights (meals : List String) (history : List HistoryEntry) (now : Int) :
    List WeightedMeal :=
  meals.map fun meal =>
    { meal := meal
      weight := if now - lastEaten history meal < RECENT_DAYS_MS then 1 else 10 }

/-- The flattened `weightedList` array of `pickWeightedMeal`: each meal is
pushed `weight` times, in input order. -/
def buildPool (mealWeights : List WeightedMeal) : List String :=
  (mealWeights.map fun item => List.replicate item.weight item.meal).flatten

/-- Failure modes of the selector. `emptyInput` is the
`meals.length === 0` early return (the spec's `EmptyInputError`);
`typeError` marks the out-of-contract case where the random index misses
the pool, in which JavaScript would read `undefined` and then crash on
`weightInfo.weight`. -/
inductive PickError where
  | emptyInput
  | typeError
deriving DecidableEq

/-- The selector's result: the chosen meal name together with the
penalization flag derived from `weightInfo.weight === 1`. -/
structure PickResult where
  meal : String
  wasPenalized : Bool
deriving DecidableEq

/-- Steps 2–3 of `pickWeightedMeal` on an already-weighted list:
`randomIndex = Math.floor(r * weightedList.length)`, read the pool at that
index, then look the chosen name up in `mealWeights` with `find` to compute
the penalization flag. -/
def pick (mealWeights : List WeightedMeal) (r : ℚ) : Except PickError PickResult :=
  let weightedList := buildPool mealWeights
  let randomIndex : Int := ⌊r * (weightedList.length : ℚ)⌋
  match (if randomIndex < 0 then none else weightedList[randomIndex.toNat]?) with
  | none => Except.error PickError.typeError
  | some chosenMeal =>
    match mealWeights.find? (fun item => item.meal == chosenMeal) with
    | none => Except.error PickError.typeError
    | some weightInfo =>
      Except.ok { meal := chosenMeal, wasPenalized := weightInfo.weight == 1 }

/-- The whole `pickWeightedMeal` function, with the stored meal list and
history, the clock value and the random draw passed explicitly. -/
def pickWeightedMeal (meals : List String) (history : List HistoryEntry)
    (now : Int) (r : ℚ) : Except PickError PickResult :=
  if meals.length = 0 then Except.error PickError.emptyInput
  else pick (computeWeights meals history now) r

/-- The meal name a `pick` run selects, when it succeeds. -/
def pickedMeal (mealWeights : List WeightedMeal) (r : ℚ) : Option String :=
  match pick mealWeights r with
  | Except.ok res => some res.meal
  | Except.error _ => none

/-- The set of random-source values in `[0, 1)` under which `pick`
selects the meal named `m`. -/
def selSet (mealWeights : List WeightedMeal) (m : String) : Set ℚ :=
  {r : ℚ | 0 ≤ r ∧ r < 1 ∧ pickedMeal mealWeights r = some m}

/-- The pool positions holding the meal named `m`. -/
def mealIndexes (mealWeights : List WeightedMeal) (m : String) : Finset ℕ :=
  (Finset.range (buildPool mealWeights).length).filter
    (fun k => (buildPool mealWeights)[k]? = some m)

/-- The filter step of `renderHistory`:
`history.filter(item => item.date > cutoffDate)` with
`cutoffDate = now - RECENT_DAYS_MS`. -/
def recentFilter (history : List HistoryEntry) (now : Int) : List HistoryEntry :=
  history.filter fun item => decide (now - RECENT_DAYS_MS < item.date)

/-- The comparator `(a, b) => b.date - a.date` of `renderHistory`, as the
descending-by-date ordering it induces. -/
def moreRecent (a b : HistoryEntry) : Bool :=
  decide (b.date ≤ a.date)

/-- The `recentHistory` value computed by `renderHistory`:
filter by the 30-day cutoff, stable-sort descending by date
(`Array.prototype.sort` is stable), and `slice(0, 10)`. -/
def recentHistory (history : List HistoryEntry) (now : Int) : List HistoryEntry :=
  ((recentFilter history now).mergeSort moreRecent).take 10

/-- The characters JavaScript `String.prototype.trim` removes: the
ECMAScript WhiteSpace set (TAB, VT, FF, SP, NBSP, ZWNBSP and the Unicode
space-separator category) together with the LineTerminator set
(LF, CR, LS, PS). -/
def jsWhitespace (c : Char) : Bool :=
  [' ', '\t', '\n', '\r', '\u000B', '\u000C', '\u00A0', '\u1680',
   '\u2000', '\u2001', '\u2002', '\u2003', '\u2004', '\u2005', '\u2006',
   '\u2007', '\u2008', '\u2009', '\u200A', '\u2028', '\u2029', '\u202F',
   '\u205F', '\u3000', '\uFEFF'].contains c

/-- JavaScript `String.prototype.trim` on the input box value: drop
trailing then leading whitespace, with whitespace per `jsWhitespace`. -/
def jsTrim (s : String) : String :=
  ⟨List.dropWhile jsWhitespace
    ((List.dropWhile jsWhitespace s.data.reverse).reverse)⟩

/-- The `addMeal` handler acting on the stored meal list: trim the input;
when the result is nonempty (`if (newMeal)`) and not already present
(`meals.includes`, case-sensitive), push it; otherwise leave the list
unchanged. -/
def addMeal (meals : List String) (input : String) : List String :=
  let newMeal := jsTrim input
  if newMeal ≠ "" then
    if meals.contains newMeal then meals
    else meals ++ [newMeal]
  else meals

/-- The `deleteMeal` handler: `meals.filter(meal => meal !== mealName)`. -/
def deleteMeal (meals : List String) (mealName : String) : List String :=
  meals.filter fun meal => decide (meal ≠ mealName)

/-- The module-level mutable state read and written by `confirmMeal`:
the stored meal list, the stored history, and `currentPickedMeal`. -/
structure AppState where
  meals : List String
  history : List HistoryEntry
  currentPickedMeal : Option String
deriving DecidableEq

/-- The `confirmMeal` handler: a no-op when nothing is picked; otherwise
push `{ meal: currentPickedMeal, date: Date.now() }` onto the history and
reset `currentPickedMeal` (via `resetPickerUI`). The meal list is not
touched. -/
def confirmMeal (s : AppState) (now : Int) : AppState :=
  match s.currentPickedMeal with
  | none => s
  | some meal =>
    { meals := s.meals
      history := s.history ++ [{ meal := meal, date := now }]
      currentPickedMeal := none }

/-- A concrete state with a picked meal, used to instantiate the
`confirmMeal` theorem. -/
def sampleState : AppState :=
  { meals := ["Tacos"]
    history := [{ meal := "Pizza", date := 3 }]
    currentPickedMeal := some "Tacos" }

/-- The statement that `t` is the timestamp of the most recent history
entry whose meal field equals `m`: some matching entry carries `t`, and
every matching entry is at most `t`. -/
def IsMostRecent (history : List HistoryEntry) (m : String) (t : Int) : Prop :=
  (∃ e ∈ history, e.meal = m ∧ e.date = t) ∧ ∀ e ∈ history, e.meal = m → e.date ≤ t

/-- A fixed clock value for the concrete scenario of the spec
(November 2023, far past the 30-day window). -/
def c1Now : Int := 1700000000000

/-- The scenario history: Pizza eaten two days before `c1Now`. -/
def c1History : List HistoryEntry :=
  [{ meal := "Pizza", date := c1Now - 2 * 86400000 }]

end Script

namespace Script

/-! Facts about `lastEaten`: it is the maximum of `0` and the matching
timestamps, exactly as the `reduce((latest, item) => Math.max(...), 0)`
in the source computes it. -/

theorem init_le_foldl_max (l : List Int) (a : Int) : a ≤ l.foldl max a := by
  induction l generalizing a with
  | nil => exact le_rfl
  | cons x t ih => exact le_trans (le_max_left a x) (ih (max a x))

theorem mem_le_foldl_max {x : Int} (l : List Int) (a : Int) (hx : x ∈ l) :
    x ≤ l.foldl max a := by
  induction l generalizing a with
  | nil => cases hx
  | cons y t ih =>
    rcases List.mem_cons.mp hx with h | h
    · subst h
      exact le_trans (le_max_right a x) (init_le_foldl_max t _)
    · exact ih (max a y) h

theorem foldl_max_mem (l : List Int) (a : Int) :
    l.foldl max a = a ∨ l.foldl max a ∈ l := by
  induction l generalizing a with
  | nil => exact Or.inl rfl
  | cons y t ih =>
    rcases ih (max a y) with h | h
    · rcases max_choice a y with hm | hm
      · exact Or.inl (by rw [List.foldl_cons, h, hm])
      · refine Or.inr ?_
        rw [List.foldl_cons, h, hm]
        exact List.mem_cons_self y t
    · exact Or.inr (List.mem_cons_of_mem y (by simpa using h))

theorem lastEaten_eq (history : List HistoryEntry) (m : String) :
    lastEaten history m =
      ((history.filter fun e => e.meal == m).map HistoryEntry.date).foldl max 0 := by
  rw [lastEaten, List.foldl_map]

theorem lastEaten_nonneg (history : List HistoryEntry) (m : String) :
    0 ≤ lastEaten history m := by
  rw [lastEaten_eq]
  exact init_le_foldl_max _ _

theorem date_le_lastEaten {history : List HistoryEntry} {m : String} {e : HistoryEntry}
    (he : e ∈ history) (hm : e.meal = m) : e.date ≤ lastEaten history m := by
  rw [lastEaten_eq]
  exact mem_le_foldl_max _ _
    (List.mem_map_of_mem _ (List.mem_filter.mpr ⟨he, by simp [hm]⟩))

theorem lastEaten_cases (history : List HistoryEntry) (m : String) :
    lastEaten history m = 0 ∨
      ∃ e ∈ history, e.meal = m ∧ lastEaten history m = e.date := by
  rw [lastEaten_eq]
  rcases foldl_max_mem ((history.filter fun e => e.meal == m).map HistoryEntry.date) 0
    with h | h
  · exact Or.inl h
  · obtain ⟨e, he, hde⟩ := List.mem_map.mp h
    obtain ⟨he', hm⟩ := List.mem_filter.mp he
    exact Or.inr ⟨e, he', by simpa using hm, hde.symm⟩

theorem lastEaten_of_no_match {history : List HistoryEntry} {m : String}
    (h : ∀ e ∈ history, e.meal ≠ m) : lastEaten history m = 0 := by
  rw [lastEaten]
  have hnil : history.filter (fun e => e.meal == m) = [] :=
    List.filter_eq_nil_iff.mpr (fun e he => by simpa using h e he)
  rw [hnil]
  rfl

/-- C2 (amended): with `now` at least 30 days past the epoch, every
weight is `1` or `10`; a meal with no matching history entry gets `10`;
a meal whose most recent matching entry is within the window gets `1`,
and one whose most recent matching entry is at least 30 days old gets
`10`. (Without the `now` bound the claim fails: `lastEaten` defaults to
the epoch, which then counts as recent.) -/
theorem computeWeights_weight_cases (meals : List String) (history : List HistoryEntry)
    (now : Int) (hnow : RECENT_DAYS_MS ≤ now) :
    ∀ w ∈ computeWeights meals history now,
      (w.weight = 1 ∨ w.weight = 10) ∧
      ((∀ e ∈ history, e.meal ≠ w.meal) → w.weight = 10) ∧
      (∀ t : Int, IsMostRecent history w.meal t →
        (now - t < RECENT_DAYS_MS → w.weight = 1) ∧
        (RECENT_DAYS_MS ≤ now - t → w.weight = 10)) := by
  intro w hw
  obtain ⟨m, hm, rfl⟩ := List.mem_map.mp hw
  dsimp only
  refine ⟨?_, ?_, ?_⟩
  · split
    · exact Or.inl rfl
    · exact Or.inr rfl
  · intro hnone
    rw [lastEaten_of_no_match hnone, if_neg (by omega)]
  · intro t ⟨⟨e, he, hem, hed⟩, hmaxt⟩
    have h1 : t ≤ lastEaten history m := hed ▸ date_le_lastEaten he hem
    constructor
    · intro hrec
      rw [if_pos (by omega)]
    · intro hold
      rcases lastEaten_cases history m with h0 | ⟨e', he', hm', heq⟩
      · rw [h0, if_neg (by omega)]
      · have h2 : e'.date ≤ t := hmaxt e' he' hm'
        rw [heq, if_neg (by omega)]

/-- Witness for C2 at a concrete input: `now` exactly 30 days past the
epoch, one meal, empty history. -/
theorem computeWeights_weight_cases_witness :
    RECENT_DAYS_MS ≤ (2592000000 : Int) ∧
    ∀ w ∈ computeWeights ["A"] [] 2592000000,
      (w.weight = 1 ∨ w.weight = 10) ∧
      ((∀ e ∈ ([] : List HistoryEntry), e.meal ≠ w.meal) → w.weight = 10) ∧
      (∀ t : Int, IsMostRecent [] w.meal t →
        (2592000000 - t < RECENT_DAYS_MS → w.weight = 1) ∧
        (RECENT_DAYS_MS ≤ 2592000000 - t → w.weight = 10)) :=
  ⟨by decide, computeWeights_weight_cases ["A"] [] 2592000000 (by decide)⟩

/-- C2 (counterexample): at `now = 0` the never-eaten meal `"A"` gets
weight `1`, not `10` as the claim requires for meals absent from the
history, because `lastEaten` defaults to the epoch and the epoch is
within 30 days of `now = 0`. -/
theorem computeWeights_counterexample :
    computeWeights ["A"] [] 0 = [{ meal := "A", weight := 1 }] ∧
    ¬ (∀ w ∈ computeWeights ["A"] [] 0, w.weight = 10) := by
  decide

/-- C3: on the empty meal list the selector reports `emptyInput`
(`EmptyInputError`) for every history, clock value and random draw,
and never returns a meal. -/
theorem pickWeightedMeal_empty :
    ∀ (history : List HistoryEntry) (now : Int) (r : ℚ),
      pickWeightedMeal [] history now r = Except.error PickError.emptyInput :=
  fun _ _ _ => rfl

/-- C9: `computeWeights` is pure—two calls on identical inputs return
identical lists—and its output has one entry per input meal, in input
order. -/
theorem computeWeights_deterministic (meals : List String)
    (history : List HistoryEntry) (now : Int) :
    computeWeights meals history now = computeWeights meals history now ∧
    (computeWeights meals history now).map WeightedMeal.meal = meals := by
  refine ⟨rfl, ?_⟩
  unfold computeWeights
  rw [List.map_map]
  exact List.map_id meals

/-- C7: starting from a duplicate-free meal list, both `addMeal` (which
rejects a trimmed name already present, by case-sensitive exact match)
and `deleteMeal` return a duplicate-free meal list. -/
theorem mealList_nodup_preserved (meals : List String) (input mealName : String)
    (h : meals.Nodup) :
    (addMeal meals input).Nodup ∧ (deleteMeal meals mealName).Nodup := by
  refine ⟨?_, List.Nodup.filter _ h⟩
  simp only [addMeal]
  split
  · split
    · exact h
    · rename_i hc
      have hnm : jsTrim input ∉ meals := by simpa using hc
      simp [List.nodup_append, h, hnm]
  · exact h

/-- Witness for C7 on a concrete duplicate-free list. -/
theorem mealList_nodup_preserved_witness :
    (["Tacos", "Pizza"] : List String).Nodup ∧
    (addMeal ["Tacos", "Pizza"] " Sushi ").Nodup ∧
    (deleteMeal ["Tacos", "Pizza"] "Pizza").Nodup := by
  refine ⟨by decide, ?_⟩
  have := mealList_nodup_preserved ["Tacos", "Pizza"] " Sushi " "Pizza" (by decide)
  exact this

/-- C8: confirming a pick appends exactly one entry, recording the picked
meal and the clock value, at the end of the history; every pre-existing
entry keeps its value and position, and the meal list is untouched. -/
theorem confirmMeal_frame (s : AppState) (now : Int) (m : String)
    (h : s.currentPickedMeal = some m) :
    (confirmMeal s now).history = s.history ++ [{ meal := m, date := now }] ∧
    (confirmMeal s now).history.length = s.history.length + 1 ∧
    (∀ i, i < s.history.length →
      (confirmMeal s now).history[i]? = s.history[i]?) ∧
    (confirmMeal s now).history.getLast? = some { meal := m, date := now } ∧
    (confirmMeal s now).meals = s.meals := by
  have hc : confirmMeal s now =
      { meals := s.meals
        history := s.history ++ [{ meal := m, date := now }]
        currentPickedMeal := none } := by
    unfold confirmMeal
    rw [h]
  rw [hc]
  refine ⟨rfl, by simp, ?_, List.getLast?_concat _, rfl⟩
  intro i hi
  simp [List.getElem?_append, hi]

/-- Witness for C8 on a concrete state with a picked meal. -/
theorem confirmMeal_frame_witness :
    sampleState.currentPickedMeal = some "Tacos" ∧
    ((confirmMeal sampleState 7).history =
        sampleState.history ++ [{ meal := "Tacos", date := 7 }] ∧
      (confirmMeal sampleState 7).history.length =
        sampleState.history.length + 1 ∧
      (∀ i, i < sampleState.history.length →
        (confirmMeal sampleState 7).history[i]? = sampleState.history[i]?) ∧
      (confirmMeal sampleState 7).history.getLast? =
        some { meal := "Tacos", date := 7 } ∧
      (confirmMeal sampleState 7).meals = sampleState.meals) :=
  ⟨rfl, confirmMeal_frame sampleState 7 "Tacos" rfl⟩

end Script

namespace Script

theorem pick_eval {ws : List WeightedMeal} {r : ℚ} {k : Int} {m : String}
    {wi : WeightedMeal}
    (hfl : ⌊r * ((buildPool ws).length : ℚ)⌋ = k) (hk : 0 ≤ k)
    (hget : (buildPool ws)[k.toNat]? = some m)
    (hfind : ws.find? (fun item => item.meal == m) = some wi) :
    pick ws r = Except.ok { meal := m, wasPenalized := wi.weight == 1 } := by
  simp only [pick]
  rw [hfl, if_neg (not_lt.mpr hk)]
  simp only [hget, hfind]

theorem buildPool_cons (w : WeightedMeal) (ws : List WeightedMeal) :
    buildPool (w :: ws) = List.replicate w.weight w.meal ++ buildPool ws := by
  simp [buildPool]

theorem buildPool_length (ws : List WeightedMeal) :
    (buildPool ws).length = (ws.map WeightedMeal.weight).sum := by
  induction ws with
  | nil => rfl
  | cons w t ih => simp [buildPool_cons, ih]

theorem mem_buildPool {ws : List WeightedMeal} {x : String} (hx : x ∈ buildPool ws) :
    ∃ w ∈ ws, x = w.meal := by
  simp only [buildPool, List.mem_flatten, List.mem_map] at hx
  obtain ⟨l, ⟨w, hw, rfl⟩, hxl⟩ := hx
  exact ⟨w, hw, List.eq_of_mem_replicate hxl⟩

theorem buildPool_length_pos {ws : List WeightedMeal}
    (hw : ∀ w ∈ ws, 0 < w.weight) (hne : ws ≠ []) :
    0 < (buildPool ws).length := by
  cases ws with
  | nil => exact absurd rfl hne
  | cons w t =>
    rw [buildPool_cons, List.length_append, List.length_replicate]
    have := hw w (List.mem_cons_self w t)
    omega

theorem count_buildPool {ws : List WeightedMeal}
    (hnodup : (ws.map WeightedMeal.meal).Nodup) {w : WeightedMeal} (hw : w ∈ ws) :
    (buildPool ws).count w.meal = w.weight := by
  induction ws with
  | nil => cases hw
  | cons x t ih =>
    rw [buildPool_cons, List.count_append]
    simp only [List.map_cons, List.nodup_cons] at hnodup
    rcases List.mem_cons.mp hw with h | h
    · subst h
      rw [List.count_replicate, if_pos (by simp), List.count_eq_zero.mpr, Nat.add_zero]
      intro hmem
      obtain ⟨w', hw', hmeq⟩ := mem_buildPool hmem
      exact hnodup.1 (hmeq ▸ List.mem_map_of_mem WeightedMeal.meal hw')
    · have hne : x.meal ≠ w.meal := by
        intro he
        exact hnodup.1 (he ▸ List.mem_map_of_mem WeightedMeal.meal h)
      rw [List.count_replicate, if_neg (by simpa using hne), Nat.zero_add]
      exact ih hnodup.2 h

theorem floor_index_bounds {r : ℚ} {L : ℕ} (hL : 0 < L) (h0 : 0 ≤ r) (h1 : r < 1) :
    0 ≤ ⌊r * (L : ℚ)⌋ ∧ (⌊r * (L : ℚ)⌋).toNat < L := by
  have hLQ : (0 : ℚ) < (L : ℚ) := by exact_mod_cast hL
  have hge : 0 ≤ ⌊r * (L : ℚ)⌋ := Int.floor_nonneg.mpr (mul_nonneg h0 hLQ.le)
  have hlt : ⌊r * (L : ℚ)⌋ < (L : ℤ) := by
    rw [Int.floor_lt]
    push_cast
    exact mul_lt_of_lt_one_left hLQ h1
  exact ⟨hge, by omega⟩

theorem pick_ok (ws : List WeightedMeal) (r : ℚ)
    (hw : ∀ w ∈ ws, 0 < w.weight) (hne : ws ≠ []) (h0 : 0 ≤ r) (h1 : r < 1) :
    ∃ k : ℕ, (k : Int) = ⌊r * ((buildPool ws).length : ℚ)⌋ ∧
      k < (buildPool ws).length ∧
      ∃ m wi, (buildPool ws)[k]? = some m ∧
        ws.find? (fun item => item.meal == m) = some wi ∧
        pick ws r = Except.ok { meal := m, wasPenalized := wi.weight == 1 } := by
  obtain ⟨hge, hlt⟩ := floor_index_bounds (buildPool_length_pos hw hne) h0 h1
  refine ⟨(⌊r * ((buildPool ws).length : ℚ)⌋).toNat, Int.toNat_of_nonneg hge, hlt, ?_⟩
  have hget := List.getElem?_eq_getElem hlt
  have hmem : (buildPool ws)[(⌊r * ((buildPool ws).length : ℚ)⌋).toNat] ∈ buildPool ws :=
    List.getElem_mem hlt
  obtain ⟨w0, hw0, hmeq⟩ := mem_buildPool hmem
  have hfs : (ws.find? (fun item => item.meal ==
      (buildPool ws)[(⌊r * ((buildPool ws).length : ℚ)⌋).toNat])).isSome := by
    rw [List.find?_isSome]
    exact ⟨w0, hw0, by simp [hmeq]⟩
  obtain ⟨wi, hfind⟩ := Option.isSome_iff_exists.mp hfs
  exact ⟨_, wi, hget, hfind, pick_eval rfl hge hget hfind⟩

end Script

namespace Script

theorem scenario_pick_eq :
    pickWeightedMeal ["Tacos", "Pizza"] c1History c1Now (19 / 20) =
      Except.ok { meal := "Pizza", wasPenalized := true } := by
  unfold pickWeightedMeal
  rw [if_neg (by decide)]
  rw [show computeWeights ["Tacos", "Pizza"] c1History c1Now =
    [{ meal := "Tacos", weight := 10 }, { meal := "Pizza", weight := 1 }] from by decide]
  have hfl : ⌊(19 / 20 : ℚ) * ((buildPool [{ meal := "Tacos", weight := 10 },
      { meal := "Pizza", weight := 1 }]).length : ℚ)⌋ = (10 : Int) := by
    rw [show (buildPool [{ meal := "Tacos", weight := 10 },
      { meal := "Pizza", weight := 1 }]).length = 11 from by decide]
    norm_num [Int.floor_eq_iff]
  have hget : (buildPool [{ meal := "Tacos", weight := 10 },
      { meal := "Pizza", weight := 1 }])[(10 : Int).toNat]? = some "Pizza" := by decide
  have hfind : List.find? (fun item => item.meal == "Pizza")
      [{ meal := "Tacos", weight := 10 }, ({ meal := "Pizza", weight := 1 } : WeightedMeal)] =
      some { meal := "Pizza", weight := 1 } := by decide
  exact pick_eval hfl (by decide) hget hfind

theorem scenario_counterexample :
    (pickWeightedMeal ["Tacos", "Pizza"] c1History c1Now (19 / 20)).toOption.map
        PickResult.meal = some "Pizza" ∧
    some "Pizza" ≠ some ("Tacos" : String) := by
  rw [scenario_pick_eq]
  exact ⟨rfl, by decide⟩

theorem scenario_amended :
    computeWeights ["Tacos", "Pizza"] c1History c1Now =
      [{ meal := "Tacos", weight := 10 }, { meal := "Pizza", weight := 1 }] ∧
    (buildPool (computeWeights ["Tacos", "Pizza"] c1History c1Now)).length = 11 ∧
    pickWeightedMeal ["Tacos", "Pizza"] c1History c1Now (19 / 20) =
      Except.ok { meal := "Pizza", wasPenalized := true } :=
  ⟨by decide, by decide, scenario_pick_eq⟩

theorem pick_penalized_iff (ws : List WeightedMeal) (r : ℚ)
    (hw : ∀ w ∈ ws, 0 < w.weight) (hne : ws ≠ [])
    (hnodup : (ws.map WeightedMeal.meal).Nodup) (h0 : 0 ≤ r) (h1 : r < 1) :
    ∃ res, pick ws r = Except.ok res ∧
      ∀ w ∈ ws, w.meal = res.meal → (res.wasPenalized = true ↔ w.weight = 1) := by
  obtain ⟨k, hkfl, hk, m, wi, hget, hfind, hpick⟩ := pick_ok ws r hw hne h0 h1
  refine ⟨_, hpick, ?_⟩
  intro w hw' hmeal
  have hwi_mem : wi ∈ ws := List.mem_of_find?_eq_some hfind
  have hwi_meal : wi.meal = m := by simpa using List.find?_some hfind
  have hww : w = wi :=
    List.inj_on_of_nodup_map hnodup hw' hwi_mem (by rw [hmeal, hwi_meal])
  subst hww
  simp

theorem pick_penalized_iff_witness :
    (∀ w ∈ ([{ meal := "Tacos", weight := 10 }, { meal := "Pizza", weight := 1 }] :
        List WeightedMeal), 0 < w.weight) ∧
    ([{ meal := "Tacos", weight := 10 }, { meal := "Pizza", weight := 1 }] :
        List WeightedMeal) ≠ [] ∧
    (([{ meal := "Tacos", weight := 10 }, { meal := "Pizza", weight := 1 }] :
        List WeightedMeal).map WeightedMeal.meal).Nodup ∧
    (0 : ℚ) ≤ 1 / 2 ∧ (1 / 2 : ℚ) < 1 ∧
    ∃ res, pick [{ meal := "Tacos", weight := 10 }, { meal := "Pizza", weight := 1 }]
        (1 / 2) = Except.ok res ∧
      ∀ w ∈ ([{ meal := "Tacos", weight := 10 }, { meal := "Pizza", weight := 1 }] :
          List WeightedMeal), w.meal = res.meal →
        (res.wasPenalized = true ↔ w.weight = 1) :=
  ⟨by decide, by decide, by decide, by norm_num, by norm_num,
    pick_penalized_iff _ _ (by decide) (by decide) (by decide)
      (by norm_num) (by norm_num)⟩

end Script

namespace Script

theorem card_filter_getElem_eq_count (l : List String) (a : String) :
    ((Finset.range l.length).filter (fun k => l[k]? = some a)).card = l.count a := by
  induction l with
  | nil => simp
  | cons x t ih =>
    rw [Finset.card_filter, List.length_cons, Finset.sum_range_succ']
    rw [Finset.card_filter] at ih
    simp only [List.getElem?_cons_succ, List.getElem?_cons_zero]
    rw [ih, List.count_cons]
    simp [beq_iff_eq]

theorem selSet_eq_iUnion (ws : List WeightedMeal) (m : String)
    (hw : ∀ w ∈ ws, 0 < w.weight) (hne : ws ≠ []) :
    selSet ws m = ⋃ k ∈ mealIndexes ws m,
      Set.Ico ((k : ℚ) / ((buildPool ws).length : ℚ))
        (((k : ℚ) + 1) / ((buildPool ws).length : ℚ)) := by
  have hL : 0 < (buildPool ws).length := buildPool_length_pos hw hne
  have hLQ : (0 : ℚ) < ((buildPool ws).length : ℚ) := by exact_mod_cast hL
  ext r
  simp only [selSet, Set.mem_setOf_eq, Set.mem_iUnion, mealIndexes, Finset.mem_filter,
    Finset.mem_range, Set.mem_Ico, exists_prop]
  constructor
  · rintro ⟨h0, h1, hpm⟩
    obtain ⟨k, hkfl, hk, m0, wi, hget, hfind, hpick⟩ := pick_ok ws r hw hne h0 h1
    have hm0 : m0 = m := by
      simp only [pickedMeal, hpick] at hpm
      simpa using hpm
    refine ⟨k, ⟨hk, hm0 ▸ hget⟩, ?_, ?_⟩
    · rw [div_le_iff₀ hLQ]
      have h := (Int.floor_eq_iff.mp hkfl.symm).1
      exact_mod_cast h
    · rw [lt_div_iff₀ hLQ]
      have h := (Int.floor_eq_iff.mp hkfl.symm).2
      push_cast at h ⊢
      exact h
  · rintro ⟨k, ⟨hk, hkm⟩, hlo, hhi⟩
    have h0 : 0 ≤ r := le_trans (div_nonneg (Nat.cast_nonneg k) hLQ.le) hlo
    have h1 : r < 1 := by
      refine lt_of_lt_of_le hhi ?_
      rw [div_le_one hLQ]
      exact_mod_cast Nat.succ_le_of_lt hk
    obtain ⟨k2, hkfl2, hk2, m0, wi, hget, hfind, hpick⟩ := pick_ok ws r hw hne h0 h1
    have hfl : ⌊r * ((buildPool ws).length : ℚ)⌋ = (k : Int) := by
      rw [Int.floor_eq_iff]
      constructor
      · push_cast
        rwa [div_le_iff₀ hLQ] at hlo
      · push_cast
        rwa [lt_div_iff₀ hLQ] at hhi
    have hkk : k2 = k := by
      have h := hkfl2.trans hfl
      exact_mod_cast h
    subst hkk
    have hm0 : m0 = m := by
      rw [hget] at hkm
      simpa using hkm
    exact ⟨h0, h1, by simp [pickedMeal, hpick, hm0]⟩

theorem mealIndexes_sum_lengths (ws : List WeightedMeal)
    (hnodup : (ws.map WeightedMeal.meal).Nodup) {w : WeightedMeal} (hw : w ∈ ws) :
    ∑ k ∈ mealIndexes ws w.meal,
      (((k : ℚ) + 1) / ((buildPool ws).length : ℚ) -
        (k : ℚ) / ((buildPool ws).length : ℚ)) =
      (w.weight : ℚ) / (((ws.map WeightedMeal.weight).sum : ℕ) : ℚ) := by
  have hcard : (mealIndexes ws w.meal).card = w.weight := by
    rw [mealIndexes, card_filter_getElem_eq_count, count_buildPool hnodup hw]
  have hterm : ∀ k ∈ mealIndexes ws w.meal,
      ((k : ℚ) + 1) / ((buildPool ws).length : ℚ) -
        (k : ℚ) / ((buildPool ws).length : ℚ) =
      1 / ((buildPool ws).length : ℚ) := by
    intro k hk
    rw [div_sub_div_same, add_sub_cancel_left]
  rw [Finset.sum_congr rfl hterm, Finset.sum_const, hcard, nsmul_eq_mul, mul_one_div,
    buildPool_length]

theorem pick_pool_distribution (ws : List WeightedMeal) (r : ℚ)
    (hw : ∀ w ∈ ws, 0 < w.weight) (hne : ws ≠ [])
    (hnodup : (ws.map WeightedMeal.meal).Nodup) (h0 : 0 ≤ r) (h1 : r < 1) :
    (∀ w ∈ ws, (buildPool ws).count w.meal = w.weight) ∧
    (buildPool ws).length = (ws.map WeightedMeal.weight).sum ∧
    (∃ res, pick ws r = Except.ok res ∧
      (buildPool ws)[(⌊r * ((buildPool ws).length : ℚ)⌋).toNat]? = some res.meal) ∧
    (∀ w ∈ ws,
      selSet ws w.meal = (⋃ k ∈ mealIndexes ws w.meal,
        Set.Ico ((k : ℚ) / ((buildPool ws).length : ℚ))
          (((k : ℚ) + 1) / ((buildPool ws).length : ℚ))) ∧
      ∑ k ∈ mealIndexes ws w.meal,
        (((k : ℚ) + 1) / ((buildPool ws).length : ℚ) -
          (k : ℚ) / ((buildPool ws).length : ℚ)) =
        (w.weight : ℚ) / (((ws.map WeightedMeal.weight).sum : ℕ) : ℚ)) := by
  refine ⟨fun w hw' => count_buildPool hnodup hw', buildPool_length ws, ?_, ?_⟩
  · obtain ⟨k, hkfl, hk, m, wi, hget, hfind, hpick⟩ := pick_ok ws r hw hne h0 h1
    refine ⟨_, hpick, ?_⟩
    have hkn : (⌊r * ((buildPool ws).length : ℚ)⌋).toNat = k := by omega
    rw [hkn]
    exact hget
  · intro w hw'
    exact ⟨selSet_eq_iUnion ws w.meal hw hne, mealIndexes_sum_lengths ws hnodup hw'⟩

theorem pick_pool_distribution_witness :
    (∀ w ∈ ([{ meal := "Tacos", weight := 10 }, { meal := "Pizza", weight := 1 }] :
        List WeightedMeal), 0 < w.weight) ∧
    ([{ meal := "Tacos", weight := 10 }, { meal := "Pizza", weight := 1 }] :
        List WeightedMeal) ≠ [] ∧
    (([{ meal := "Tacos", weight := 10 }, { meal := "Pizza", weight := 1 }] :
        List WeightedMeal).map WeightedMeal.meal).Nodup ∧
    (0 : ℚ) ≤ 1 / 3 ∧ (1 / 3 : ℚ) < 1 ∧
    ((∀ w ∈ ([{ meal := "Tacos", weight := 10 }, { meal := "Pizza", weight := 1 }] :
        List WeightedMeal),
        (buildPool [{ meal := "Tacos", weight := 10 },
          { meal := "Pizza", weight := 1 }]).count w.meal = w.weight) ∧
      (buildPool [{ meal := "Tacos", weight := 10 },
          { meal := "Pizza", weight := 1 }]).length =
        (([{ meal := "Tacos", weight := 10 }, { meal := "Pizza", weight := 1 }] :
          List WeightedMeal).map WeightedMeal.weight).sum ∧
      (∃ res, pick [{ meal := "Tacos", weight := 10 },
          { meal := "Pizza", weight := 1 }] (1 / 3) = Except.ok res ∧
        (buildPool [{ meal := "Tacos", weight := 10 },
          { meal := "Pizza", weight := 1 }])[(⌊(1 / 3 : ℚ) *
            ((buildPool [{ meal := "Tacos", weight := 10 },
              { meal := "Pizza", weight := 1 }]).length : ℚ)⌋).toNat]? =
          some res.meal) ∧
      (∀ w ∈ ([{ meal := "Tacos", weight := 10 }, { meal := "Pizza", weight := 1 }] :
          List WeightedMeal),
        selSet [{ meal := "Tacos", weight := 10 }, { meal := "Pizza", weight := 1 }]
            w.meal =
          (⋃ k ∈ mealIndexes [{ meal := "Tacos", weight := 10 },
              { meal := "Pizza", weight := 1 }] w.meal,
            Set.Ico ((k : ℚ) / ((buildPool [{ meal := "Tacos", weight := 10 },
                { meal := "Pizza", weight := 1 }]).length : ℚ))
              (((k : ℚ) + 1) / ((buildPool [{ meal := "Tacos", weight := 10 },
                { meal := "Pizza", weight := 1 }]).length : ℚ))) ∧
        ∑ k ∈ mealIndexes [{ meal := "Tacos", weight := 10 },
            { meal := "Pizza", weight := 1 }] w.meal,
          (((k : ℚ) + 1) / ((buildPool [{ meal := "Tacos", weight := 10 },
              { meal := "Pizza", weight := 1 }]).length : ℚ) -
            (k : ℚ) / ((buildPool [{ meal := "Tacos", weight := 10 },
              { meal := "Pizza", weight := 1 }]).length : ℚ)) =
          (w.weight : ℚ) / (((([{ meal := "Tacos", weight := 10 },
            { meal := "Pizza", weight := 1 }] :
            List WeightedMeal).map WeightedMeal.weight).sum : ℕ) : ℚ))) :=
  ⟨by decide, by decide, by decide, by norm_num, by norm_num,
    pick_pool_distribution _ _ (by decide) (by decide) (by decide)
      (by norm_num) (by norm_num)⟩

end Script

namespace Script

theorem recentHistory_spec (history : List HistoryEntry) (now : Int) :
    recentHistory history now =
      ((recentFilter history now).mergeSort moreRecent).take 10 ∧
    ((recentFilter history now).mergeSort moreRecent).Perm (recentFilter history now) ∧
    (∀ e, e ∈ recentFilter history now ↔
      e ∈ history ∧ now - RECENT_DAYS_MS < e.date) ∧
    (recentHistory history now).Pairwise (fun a b => b.date ≤ a.date) ∧
    (∀ a b, [a, b].Sublist (recentFilter history now) → a.date = b.date →
      [a, b].Sublist ((recentFilter history now).mergeSort moreRecent)) ∧
    (recentHistory history now).length ≤ 10 := by
  have htrans : ∀ a b c : HistoryEntry, moreRecent a b = true → moreRecent b c = true →
      moreRecent a c = true := by
    intro a b c
    simp only [moreRecent, decide_eq_true_eq]
    exact fun h1 h2 => le_trans h2 h1
  have htotal : ∀ a b : HistoryEntry, (moreRecent a b || moreRecent b a) = true := by
    intro a b
    simp only [moreRecent, Bool.or_eq_true, decide_eq_true_eq]
    exact le_total b.date a.date
  refine ⟨rfl, List.mergeSort_perm _ _, ?_, ?_, ?_, List.length_take_le _ _⟩
  · intro e
    simp [recentFilter, List.mem_filter]
  · have hsorted := List.sorted_mergeSort htrans htotal (recentFilter history now)
    exact (List.Pairwise.sublist (List.take_sublist 10 _) hsorted).imp
      (fun h => by simpa [moreRecent] using h)
  · intro a b hsub heq
    refine List.sublist_mergeSort htrans htotal ?_ hsub
    simp [moreRecent, heq]

theorem addMeal_trims (meals : List String) (input : String) :
    (jsTrim input = "" → addMeal meals input = meals) ∧
    (input.data.all jsWhitespace = true → addMeal meals input = meals) ∧
    (∀ m ∈ addMeal meals input, m ∈ meals ∨ m = jsTrim input) ∧
    (∀ c, (jsTrim input).data.head? = some c → jsWhitespace c = false) ∧
    (∀ c, (jsTrim input).data.getLast? = some c → jsWhitespace c = false) := by
  have hempty : jsTrim input = "" → addMeal meals input = meals := by
    intro h
    simp [addMeal, h]
  refine ⟨hempty, ?_, ?_, ?_, ?_⟩
  · intro hall
    apply hempty
    apply String.ext
    show List.dropWhile _ _ = []
    have h1 : List.dropWhile jsWhitespace input.data.reverse = [] := by
      rw [List.dropWhile_eq_nil_iff]
      intro x hx
      exact (List.all_eq_true.mp hall) x (List.mem_reverse.mp hx)
    rw [h1]
    rfl
  · intro m hm
    simp only [addMeal] at hm
    split at hm
    · split at hm
      · exact Or.inl hm
      · rcases List.mem_append.mp hm with h | h
        · exact Or.inl h
        · exact Or.inr (by simpa using h)
    · exact Or.inl hm
  · intro c hc
    have hh := List.head?_dropWhile_not jsWhitespace
      ((List.dropWhile jsWhitespace input.data.reverse).reverse)
    rw [show (jsTrim input).data = List.dropWhile jsWhitespace
      ((List.dropWhile jsWhitespace input.data.reverse).reverse) from rfl] at hc
    rw [hc] at hh
    exact hh
  · intro c hc
    rw [show (jsTrim input).data = List.dropWhile jsWhitespace
      ((List.dropWhile jsWhitespace input.data.reverse).reverse) from rfl] at hc
    obtain ⟨t, ht⟩ := List.dropWhile_suffix
      (l := (List.dropWhile jsWhitespace input.data.reverse).reverse)
      jsWhitespace
    have hlast : ((List.dropWhile jsWhitespace input.data.reverse).reverse).getLast?
        = some c := by
      rw [← ht, List.getLast?_append, hc, Option.or_some]
    rw [List.getLast?_reverse] at hlast
    have hh := List.head?_dropWhile_not jsWhitespace input.data.reverse
    rw [hlast] at hh
    exact hh

theorem addMeal_trims_witness :
    (jsTrim " \u000B\u00A0" = "" → addMeal ["Tacos"] " \u000B\u00A0" = ["Tacos"]) ∧
    ((" \u000B\u00A0" : String).data.all jsWhitespace = true →
      addMeal ["Tacos"] " \u000B\u00A0" = ["Tacos"]) ∧
    (∀ m ∈ addMeal ["Tacos"] " \u000B\u00A0",
      m ∈ (["Tacos"] : List String) ∨ m = jsTrim " \u000B\u00A0") ∧
    (∀ c, (jsTrim " \u000B\u00A0").data.head? = some c → jsWhitespace c = false) ∧
    (∀ c, (jsTrim " \u000B\u00A0").data.getLast? = some c → jsWhitespace c = false) :=
  addMeal_trims ["Tacos"] " \u000B\u00A0"

end Script
